import Mathlib

/-!
Shallow embedding of the contextual-bandit agents of this repository
(`LinUCBAgent.py`, `MacroAgent.py`) over real arithmetic, together with
theorems checking the specification's claims about them.

A candidate context is modelled as the source's `(identifier, vector)` tuple;
numpy 1-D arrays of length `d` become functions `Fin d → ℝ`, `d × d` numpy
arrays become `Matrix (Fin d) (Fin d) ℝ`, and fallible operations return
`Option`/`Except`.
-/

open Matrix

/-- A candidate context as the agents consume it: an opaque identifier paired
with a feature vector of dimension `d` (the `(id, vector)` tuples produced by
`load.py`). -/
abbrev Context (d : ℕ) := ℕ × (Fin d → ℝ)

/-- The inner class `LinUCBAgent.MatrixBias`: the per-user matrix `M` and bias
vector `b`. -/
structure MatrixBias (d : ℕ) where
  M : Matrix (Fin d) (Fin d) ℝ
  b : Fin d → ℝ

variable {d : ℕ}

/-- `MatrixBias.__init__`: `M = np.identity(num_features)` and
`b = np.zeros(num_features)`. -/
def MatrixBias.init (d : ℕ) : MatrixBias d :=
  { M := 1, b := 0 }

/-- `MatrixBias.update`.  `context[1]` is a 1-D array of length `d`, so
`np.transpose(context[1])` is again `context[1]` and
`np.dot(context[1], np.transpose(context[1]))` is the scalar inner product,
which `M += ...` broadcasts to every entry of `M`; `np.dot(context[1], payoff)`
is the vector scaled elementwise by the payoff. -/
def MatrixBias.update (mab : MatrixBias d) (payoff : ℝ) (context : Context d) :
    MatrixBias d :=
  { M := Matrix.of fun i j => mab.M i j + context.2 ⬝ᵥ context.2,
    b := fun i => mab.b i + context.2 i * payoff }

/-- The update as the specification words it, for comparison with
`MatrixBias.update`: `M += context ⊗ context` — the outer product — and
`b += payoff * context`. -/
def MatrixBias.specOuterUpdate (mab : MatrixBias d) (payoff : ℝ) (context : Context d) :
    MatrixBias d :=
  { M := Matrix.of fun i j => mab.M i j + context.2 i * context.2 j,
    b := fun i => mab.b i + payoff * context.2 i }

/-- A fresh `MatrixBias` after a finite sequence of `update` calls, given as a
list of `(payoff, context)` arguments in call order. -/
def applyUpdates (d : ℕ) (calls : List (ℝ × Context d)) : MatrixBias d :=
  calls.foldl (fun mab pc => mab.update pc.1 pc.2) (MatrixBias.init d)

/-- The class `LinUCBAgent`: exploration coefficient `alpha`, the `is_sin`
flag, and the `defaultdict` mapping each user id to that user's `MatrixBias`,
modelled as a total function whose value at an id that was never updated is
the freshly constructed `MatrixBias` the defaultdict factory would create. -/
structure LinUCBAgent (d : ℕ) where
  alpha : ℝ
  is_sin : Bool
  user_information : ℕ → MatrixBias d

/-- `LinUCBAgent.__init__(num_features, alpha, is_sin)`. -/
def LinUCBAgent.init (num_features : ℕ) (alpha : ℝ) (is_sin : Bool) :
    LinUCBAgent num_features :=
  { alpha := alpha, is_sin := is_sin,
    user_information := fun _ => MatrixBias.init num_features }

/-- The exploration bonus computed inside `LinUCBAgent.choose` for one
candidate vector `x`:
`alpha * np.sqrt(multi_dot([x^T, Minv, x]) * math.log(timestep + 1))`. -/
noncomputable def ucb (alpha : ℝ) (Minv : Matrix (Fin d) (Fin d) ℝ)
    (x : Fin d → ℝ) (timestep : ℕ) : ℝ :=
  alpha * Real.sqrt ((x ⬝ᵥ Minv.mulVec x) * Real.log ((timestep : ℝ) + 1))

/-- One iteration of the selection loop in `LinUCBAgent.choose`: `none` models
the initial `best_idx = -1, score = -np.inf` accumulator, which any real score
beats; a stored best is replaced exactly when the current score is strictly
greater (`cur_score > score`). -/
noncomputable def chooseStep (acc : Option (ℕ × ℝ)) (cur : ℕ × ℝ) :
    Option (ℕ × ℝ) :=
  match acc with
  | none => some cur
  | some best => if best.2 < cur.2 then some cur else some best

/-- `LinUCBAgent.choose(user_id, contexts, timestep)`: resolve the effective
user id (`0` when `is_sin` is set), invert that user's `M`, set
`w = Minv · b`, score every candidate, and keep the best index.  On an empty
candidate list the loop never runs, `best_idx` stays `-1`, and `contexts[-1]`
raises `IndexError`, modelled by `none`. -/
noncomputable def LinUCBAgent.choose (agent : LinUCBAgent d) (user_id : ℕ)
    (contexts : List (Context d)) (timestep : ℕ) : Option (Context d) :=
  let user_id := if agent.is_sin then 0 else user_id
  let mab := agent.user_information user_id
  let Minv := mab.M⁻¹
  let w := Minv.mulVec mab.b
  let scores := contexts.map fun con =>
    w ⬝ᵥ con.2 + ucb agent.alpha Minv con.2 timestep
  match scores.enum.foldl chooseStep none with
  | none => none
  | some best => contexts[best.1]?

/-- `LinUCBAgent.update(payoff, context, user_id)`: resolve the effective user
id (`0` when `is_sin` is set) and forward to that user's
`MatrixBias.update`, replacing that user's entry and keeping all others. -/
def LinUCBAgent.update (agent : LinUCBAgent d) (payoff : ℝ) (context : Context d)
    (user_id : ℕ) : LinUCBAgent d :=
  let user_id := if agent.is_sin then 0 else user_id
  { agent with
    user_information := fun uid =>
      if uid = user_id then (agent.user_information user_id).update payoff context
      else agent.user_information uid }

/-- The score `choose` assigns to a candidate vector `x` for the resolved
user: `w^T · x + ucb`, with `Minv` the inverse of that user's current `M` and
`w = Minv · b`. -/
noncomputable def LinUCBAgent.ucbScore (agent : LinUCBAgent d) (user_id : ℕ)
    (timestep : ℕ) (x : Fin d → ℝ) : ℝ :=
  let mab := agent.user_information (if agent.is_sin then 0 else user_id)
  let Minv := mab.M⁻¹
  Minv.mulVec mab.b ⬝ᵥ x + ucb agent.alpha Minv x timestep

/-- C1, refuted at a concrete input: one `update` with payoff `1` and context
vector `[1, 0]` on a fresh 2-dimensional `MatrixBias` sets the off-diagonal
entry `M 0 1` to `1`, whereas the claimed outer-product update
`M += x ⊗ x` leaves it at `0`, so the two resulting matrices differ.  The bias
half of the claim does hold at this input: `b = payoff * x = [1, 0]`. -/
theorem update_adds_scalar_not_outer_product :
    ((MatrixBias.init 2).update 1 (0, ![1, 0])).M 0 1 = 1 ∧
    ((MatrixBias.init 2).specOuterUpdate 1 (0, ![1, 0])).M 0 1 = 0 ∧
    ((MatrixBias.init 2).update 1 (0, ![1, 0])).M ≠
      ((MatrixBias.init 2).specOuterUpdate 1 (0, ![1, 0])).M ∧
    ((MatrixBias.init 2).update 1 (0, ![1, 0])).b = ![1, 0] := by
  have hcode : ((MatrixBias.init 2).update 1 (0, ![1, 0])).M 0 1 = 1 := by
    simp [MatrixBias.update, MatrixBias.init, Matrix.one_apply, dotProduct,
      Fin.sum_univ_two]
  have hspec : ((MatrixBias.init 2).specOuterUpdate 1 (0, ![1, 0])).M 0 1 = 0 := by
    simp [MatrixBias.specOuterUpdate, MatrixBias.init, Matrix.one_apply]
  refine ⟨hcode, hspec, fun h => ?_, ?_⟩
  · rw [h, hspec] at hcode
    norm_num at hcode
  · funext i
    fin_cases i <;>
      simp [MatrixBias.update, MatrixBias.init]

/-- C8: on an empty candidate list `choose` fails for every agent state and
timestep — the selection loop never runs, `best_idx` stays `-1`, and
`contexts[-1]` on the empty list raises `IndexError` (modelled as `none`), so
no context is returned. -/
theorem choose_empty_candidates_fails (agent : LinUCBAgent d)
    (user_id timestep : ℕ) :
    agent.choose user_id [] timestep = none := rfl

/-- The value the selection loop of `choose` keeps, starting from a current
best `p` and scanning the remaining indexed scores `l`. -/
noncomputable def pickBest (p : ℕ × ℝ) : List (ℕ × ℝ) → ℕ × ℝ
  | [] => p
  | q :: l => if p.2 < q.2 then pickBest q l else pickBest p l

lemma foldl_chooseStep_some (l : List (ℕ × ℝ)) : ∀ p : ℕ × ℝ,
    l.foldl chooseStep (some p) = some (pickBest p l) := by
  induction l with
  | nil => intro p; rfl
  | cons q l ih =>
    intro p
    by_cases h : p.2 < q.2 <;>
      simp [chooseStep, pickBest, h, ih]

lemma pickBest_enumFrom_spec (scores : List ℝ) : ∀ (n₀ : ℕ) (p : ℕ × ℝ),
    (pickBest p (scores.enumFrom n₀) = p ∧
      ∀ j (hj : j < scores.length), scores.get ⟨j, hj⟩ ≤ p.2) ∨
    (∃ j, ∃ hj : j < scores.length,
      pickBest p (scores.enumFrom n₀) = (n₀ + j, scores.get ⟨j, hj⟩) ∧
      p.2 < scores.get ⟨j, hj⟩ ∧
      (∀ j' (hj' : j' < scores.length),
        scores.get ⟨j', hj'⟩ ≤ scores.get ⟨j, hj⟩) ∧
      (∀ j' (hj' : j' < j),
        scores.get ⟨j', hj'.trans hj⟩ < scores.get ⟨j, hj⟩)) := by
  induction scores with
  | nil =>
    intro n₀ p
    exact Or.inl ⟨rfl, fun j hj => absurd hj (Nat.not_lt_zero j)⟩
  | cons s rest ih =>
    intro n₀ p
    have hcons : (s :: rest).enumFrom n₀ = (n₀, s) :: rest.enumFrom (n₀ + 1) := rfl
    rw [hcons]
    by_cases hps : p.2 < s
    · rw [show pickBest p ((n₀, s) :: rest.enumFrom (n₀ + 1)) =
          pickBest (n₀, s) (rest.enumFrom (n₀ + 1)) from if_pos hps]
      rcases ih (n₀ + 1) (n₀, s) with ⟨heq, hmax⟩ | ⟨j, hj, heq, hlt, hmax, hstrict⟩
      · refine Or.inr ⟨0, Nat.succ_pos _, ?_, hps, ?_, ?_⟩
        · rw [heq]
          rfl
        · intro j' hj'
          match j', hj' with
          | 0, _ => exact le_refl _
          | j' + 1, hj' => exact hmax j' (Nat.lt_of_succ_lt_succ hj')
        · intro j' hj'
          exact absurd hj' (Nat.not_lt_zero j')
      · refine Or.inr ⟨j + 1, Nat.succ_lt_succ hj, ?_, hps.trans hlt, ?_, ?_⟩
        · rw [heq]
          refine congrArg (fun m => (m, rest.get ⟨j, hj⟩)) ?_
          omega
        · intro j' hj'
          match j', hj' with
          | 0, _ => exact le_of_lt hlt
          | j' + 1, hj' => exact hmax j' (Nat.lt_of_succ_lt_succ hj')
        · intro j' hj'
          match j', hj' with
          | 0, _ => exact hlt
          | j' + 1, hj' => exact hstrict j' (Nat.lt_of_succ_lt_succ hj')
    · rw [show pickBest p ((n₀, s) :: rest.enumFrom (n₀ + 1)) =
          pickBest p (rest.enumFrom (n₀ + 1)) from if_neg hps]
      rcases ih (n₀ + 1) p with ⟨heq, hmax⟩ | ⟨j, hj, heq, hlt, hmax, hstrict⟩
      · refine Or.inl ⟨heq, ?_⟩
        intro j' hj'
        match j', hj' with
        | 0, _ => exact not_lt.mp hps
        | j' + 1, hj' => exact hmax j' (Nat.lt_of_succ_lt_succ hj')
      · refine Or.inr ⟨j + 1, Nat.succ_lt_succ hj, ?_, hlt, ?_, ?_⟩
        · rw [heq]
          refine congrArg (fun m => (m, rest.get ⟨j, hj⟩)) ?_
          omega
        · intro j' hj'
          match j', hj' with
          | 0, _ => exact le_of_lt (lt_of_le_of_lt (not_lt.mp hps) hlt)
          | j' + 1, hj' => exact hmax j' (Nat.lt_of_succ_lt_succ hj')
        · intro j' hj'
          match j', hj' with
          | 0, _ => exact lt_of_le_of_lt (not_lt.mp hps) hlt
          | j' + 1, hj' => exact hstrict j' (Nat.lt_of_succ_lt_succ hj')

lemma chooseFold_spec (scores : List ℝ) (hne : scores ≠ []) :
    ∃ i, ∃ hi : i < scores.length,
      scores.enum.foldl chooseStep none = some (i, scores.get ⟨i, hi⟩) ∧
      (∀ j (hj : j < scores.length),
        scores.get ⟨j, hj⟩ ≤ scores.get ⟨i, hi⟩) ∧
      (∀ j (hj : j < i), scores.get ⟨j, hj.trans hi⟩ < scores.get ⟨i, hi⟩) := by
  match scores, hne with
  | s :: rest, _ =>
    have henum : (s :: rest).enum = (0, s) :: rest.enumFrom 1 := rfl
    rw [henum, List.foldl_cons,
      show chooseStep none (0, s) = some (0, s) from rfl,
      foldl_chooseStep_some]
    rcases pickBest_enumFrom_spec rest 1 (0, s) with
      ⟨heq, hmax⟩ | ⟨j, hj, heq, hlt, hmax, hstrict⟩
    · refine ⟨0, Nat.succ_pos _, by rw [heq]; rfl, ?_, ?_⟩
      · intro j hj
        match j, hj with
        | 0, _ => exact le_refl _
        | j + 1, hj => exact hmax j (Nat.lt_of_succ_lt_succ hj)
      · intro j hj
        exact absurd hj (Nat.not_lt_zero j)
    · refine ⟨j + 1, Nat.succ_lt_succ hj, by rw [heq, Nat.add_comm 1 j]; rfl, ?_, ?_⟩
      · intro j' hj'
        match j', hj' with
        | 0, _ => exact le_of_lt hlt
        | j' + 1, hj' => exact hmax j' (Nat.lt_of_succ_lt_succ hj')
      · intro j' hj'
        match j', hj' with
        | 0, _ => exact hlt
        | j' + 1, hj' => exact hstrict j' (Nat.lt_of_succ_lt_succ hj')

lemma choose_spec (agent : LinUCBAgent d) (user_id : ℕ)
    (contexts : List (Context d)) (timestep : ℕ) (hne : contexts ≠ []) :
    ∃ i, ∃ hi : i < contexts.length,
      agent.choose user_id contexts timestep = some (contexts.get ⟨i, hi⟩) ∧
      (∀ j (hj : j < contexts.length),
        agent.ucbScore user_id timestep (contexts.get ⟨j, hj⟩).2 ≤
          agent.ucbScore user_id timestep (contexts.get ⟨i, hi⟩).2) ∧
      (∀ j (hj : j < i),
        agent.ucbScore user_id timestep (contexts.get ⟨j, hj.trans hi⟩).2 <
          agent.ucbScore user_id timestep (contexts.get ⟨i, hi⟩).2) := by
  have hmapne : contexts.map
      (fun con => agent.ucbScore user_id timestep con.2) ≠ [] := by
    simpa using hne
  obtain ⟨i, hi, heq, hmax, hstrict⟩ :=
    chooseFold_spec (contexts.map fun con => agent.ucbScore user_id timestep con.2)
      hmapne
  rw [List.length_map] at hi
  refine ⟨i, hi, ?_, ?_, ?_⟩
  · show (match (contexts.map fun con =>
        agent.ucbScore user_id timestep con.2).enum.foldl chooseStep none with
      | none => none
      | some best => contexts[best.1]?) = _
    rw [heq]
    simp [List.getElem?_eq_getElem, hi, List.get_eq_getElem]
  · intro j hj
    have hm := hmax j (by simpa using hj)
    simpa [List.get_eq_getElem, List.getElem_map] using hm
  · intro j hj
    have hm := hstrict j hj
    simpa [List.get_eq_getElem, List.getElem_map] using hm

/-- C5: `choose` never returns a candidate outside the supplied list — for
every agent state, non-empty candidate list and timestep the returned value
is `some` element of the list — and on a singleton candidate list it returns
that one candidate regardless of the agent's statistics. -/
theorem choose_mem_and_singleton (agent : LinUCBAgent d)
    (user_id timestep : ℕ) :
    (∀ contexts : List (Context d), contexts ≠ [] →
      ∃ c ∈ contexts, agent.choose user_id contexts timestep = some c) ∧
    (∀ x : Context d, agent.choose user_id [x] timestep = some x) := by
  constructor
  · intro contexts hne
    obtain ⟨i, hi, heq, -, -⟩ := choose_spec agent user_id contexts timestep hne
    exact ⟨contexts.get ⟨i, hi⟩, contexts.get_mem _ _, heq⟩
  · intro x
    obtain ⟨i, hi, heq, -, -⟩ :=
      choose_spec agent user_id [x] timestep (by simp)
    have hi0 : i = 0 := Nat.lt_one_iff.mp (by simpa using hi)
    subst hi0
    exact heq

/-- Witness for C5: a fresh one-dimensional agent on the singleton list
`[(5, ![2])]` returns exactly that candidate. -/
theorem choose_mem_and_singleton_witness :
    (LinUCBAgent.init 1 1 false).choose 0 [(5, ![2])] 1 = some (5, ![2]) :=
  (choose_mem_and_singleton (LinUCBAgent.init 1 1 false) 0 1).2 (5, ![2])

/-- C4: for every agent state, user, non-empty candidate list and positive
timestep, `choose` returns a candidate attaining the maximal score, where the
score of a candidate vector `x` is
`w^T · x + alpha * sqrt(x^T · Minv · x * ln(timestep + 1))` with `Minv` the
inverse of the resolved user's current `M` and `w = Minv · b` (`ucbScore`). -/
theorem choose_attains_max_score (agent : LinUCBAgent d) (user_id : ℕ)
    (contexts : List (Context d)) (timestep : ℕ) (hne : contexts ≠ [])
    (_ht : 1 ≤ timestep) :
    ∃ c ∈ contexts, agent.choose user_id contexts timestep = some c ∧
      ∀ c' ∈ contexts,
        agent.ucbScore user_id timestep c'.2 ≤
          agent.ucbScore user_id timestep c.2 := by
  obtain ⟨i, hi, heq, hmax, -⟩ := choose_spec agent user_id contexts timestep hne
  refine ⟨contexts.get ⟨i, hi⟩, contexts.get_mem _ _, heq, ?_⟩
  intro c' hc'
  obtain ⟨⟨j, hj⟩, rfl⟩ := List.mem_iff_get.mp hc'
  exact hmax j hj

/-- Witness for C4 at a fresh one-dimensional agent, the candidate list
`[(5, ![2])]` and timestep `1`. -/
theorem choose_attains_max_score_witness :
    ([((5 : ℕ), ![(2 : ℝ)])] ≠ []) ∧ 1 ≤ 1 ∧
    ∃ c ∈ [((5 : ℕ), ![(2 : ℝ)])],
      (LinUCBAgent.init 1 1 false).choose 0 [(5, ![2])] 1 = some c ∧
      ∀ c' ∈ [((5 : ℕ), ![(2 : ℝ)])],
        (LinUCBAgent.init 1 1 false).ucbScore 0 1 c'.2 ≤
          (LinUCBAgent.init 1 1 false).ucbScore 0 1 c.2 :=
  ⟨by simp, le_refl 1,
    choose_attains_max_score (LinUCBAgent.init 1 1 false) 0 [(5, ![2])] 1
      (by simp) (le_refl 1)⟩

/-- C10 (amended): `choose` is a pure function of the agent state and its
arguments — no source of randomness is consulted — and on a non-empty
candidate list it returns the first candidate attaining the maximal score:
the returned index scores at least as high as every candidate and strictly
higher than every earlier candidate. -/
theorem choose_deterministic_first_argmax (agent : LinUCBAgent d)
    (user_id : ℕ) (contexts : List (Context d)) (timestep : ℕ)
    (hne : contexts ≠ []) :
    ∃ i, ∃ hi : i < contexts.length,
      agent.choose user_id contexts timestep = some (contexts.get ⟨i, hi⟩) ∧
      (∀ j (hj : j < contexts.length),
        agent.ucbScore user_id timestep (contexts.get ⟨j, hj⟩).2 ≤
          agent.ucbScore user_id timestep (contexts.get ⟨i, hi⟩).2) ∧
      (∀ j (hj : j < i),
        agent.ucbScore user_id timestep (contexts.get ⟨j, hj.trans hi⟩).2 <
          agent.ucbScore user_id timestep (contexts.get ⟨i, hi⟩).2) :=
  choose_spec agent user_id contexts timestep hne

/-- Witness for the amended C10 at a fresh one-dimensional agent and the
singleton list `[(5, ![2])]`. -/
theorem choose_deterministic_first_argmax_witness :
    ([((5 : ℕ), ![(2 : ℝ)])] ≠ []) ∧
    ∃ i, ∃ hi : i < [((5 : ℕ), ![(2 : ℝ)])].length,
      (LinUCBAgent.init 1 1 false).choose 0 [(5, ![2])] 1 =
        some ([((5 : ℕ), ![(2 : ℝ)])].get ⟨i, hi⟩) ∧
      (∀ j (hj : j < [((5 : ℕ), ![(2 : ℝ)])].length),
        (LinUCBAgent.init 1 1 false).ucbScore 0 1
            ([((5 : ℕ), ![(2 : ℝ)])].get ⟨j, hj⟩).2 ≤
          (LinUCBAgent.init 1 1 false).ucbScore 0 1
            ([((5 : ℕ), ![(2 : ℝ)])].get ⟨i, hi⟩).2) ∧
      (∀ j (hj : j < i),
        (LinUCBAgent.init 1 1 false).ucbScore 0 1
            ([((5 : ℕ), ![(2 : ℝ)])].get ⟨j, hj.trans hi⟩).2 <
          (LinUCBAgent.init 1 1 false).ucbScore 0 1
            ([((5 : ℕ), ![(2 : ℝ)])].get ⟨i, hi⟩).2) :=
  ⟨by simp,
    choose_deterministic_first_argmax (LinUCBAgent.init 1 1 false) 0
      [(5, ![2])] 1 (by simp)⟩

/-- C10 as stated, refuted at a concrete state: with `alpha = 0`, `M = I` and
`b = [1]` every score is just `w^T · x`, so the three candidates score
`0 < 1 < 2` — each of candidates `0` (vacuously) and `1` has a score strictly
exceeding all earlier candidates' scores, and the first such candidate is not
candidate `2` — yet `choose` returns candidate `2`, the first maximal one. -/
theorem choose_not_first_strict_improvement :
    (LinUCBAgent.mk 0 false fun _ => MatrixBias.mk 1 ![1]).ucbScore 0 1 ![0] <
      (LinUCBAgent.mk 0 false fun _ => MatrixBias.mk 1 ![1]).ucbScore 0 1 ![1] ∧
    (LinUCBAgent.mk 0 false fun _ => MatrixBias.mk 1 ![1]).ucbScore 0 1 ![1] <
      (LinUCBAgent.mk 0 false fun _ => MatrixBias.mk 1 ![1]).ucbScore 0 1 ![2] ∧
    (LinUCBAgent.mk 0 false fun _ => MatrixBias.mk 1 ![1]).choose 0
        [(0, ![0]), (1, ![1]), (2, ![2])] 1 = some (2, ![2]) ∧
    ((2 : ℕ), ![(2 : ℝ)]) ≠ ((0 : ℕ), ![(0 : ℝ)]) ∧
    ((2 : ℕ), ![(2 : ℝ)]) ≠ ((1 : ℕ), ![(1 : ℝ)]) := by
  have hscore : ∀ x : Fin 1 → ℝ,
      (LinUCBAgent.mk 0 false fun _ => MatrixBias.mk 1 ![1]).ucbScore 0 1 x =
        x 0 := by
    intro x
    simp [LinUCBAgent.ucbScore, ucb, inv_one, Matrix.one_mulVec,
      dotProduct, Fin.sum_univ_one]
  refine ⟨by rw [hscore, hscore]; norm_num, by rw [hscore, hscore]; norm_num,
    ?_, by simp, by simp⟩
  norm_num [LinUCBAgent.choose, ucb, inv_one, Matrix.one_mulVec, dotProduct,
    Fin.sum_univ_one, List.enum, List.enumFrom, chooseStep]

/-- C2, refuted at a concrete input: on a fresh one-dimensional agent the two
distinct candidates `(0, ![0])` and `(1, ![0])` carry the same vector, so
their scores are exactly tied, yet `choose` returns the first of them.  In
the source the comparison `cur_score > score` keeps the incumbent on ties and
no source of randomness is consulted (`choose` is a pure function of its
inputs), so no uniform random tie-break takes place. -/
theorem choose_tie_returns_first :
    (LinUCBAgent.init 1 1 false).choose 0 [(0, ![0]), (1, ![0])] 1 =
      some (0, ![0]) ∧
    ((0 : ℕ), ![(0 : ℝ)]) ≠ ((1 : ℕ), ![(0 : ℝ)]) := by
  constructor
  · norm_num [LinUCBAgent.choose, LinUCBAgent.init, MatrixBias.init, ucb,
      inv_one, Matrix.one_mulVec, Matrix.mulVec_zero, Matrix.zero_dotProduct,
      dotProduct, Fin.sum_univ_one, List.enum, List.enumFrom, chooseStep]
  · simp

/-- C9: holding the statistics fixed, the exploration term
`alpha * sqrt(x^T · Minv · x * ln(timestep + 1))` computed by `choose` is
strictly increasing in the timestep for every candidate vector with positive
directional variance `x^T · Minv · x` and positive `alpha`. -/
theorem ucb_strictly_increasing_in_timestep (alpha : ℝ)
    (Minv : Matrix (Fin d) (Fin d) ℝ) (x : Fin d → ℝ) (t₁ t₂ : ℕ)
    (halpha : 0 < alpha) (hq : 0 < x ⬝ᵥ Minv.mulVec x)
    (ht₁ : 1 ≤ t₁) (ht : t₁ < t₂) :
    ucb alpha Minv x t₁ < ucb alpha Minv x t₂ := by
  unfold ucb
  have h1 : (0 : ℝ) < (t₁ : ℝ) + 1 := by positivity
  have hlog : Real.log ((t₁ : ℝ) + 1) < Real.log ((t₂ : ℝ) + 1) := by
    apply Real.log_lt_log h1
    have : (t₁ : ℝ) < (t₂ : ℝ) := by exact_mod_cast ht
    linarith
  have hlognn : 0 ≤ Real.log ((t₁ : ℝ) + 1) := by
    apply Real.log_nonneg
    have : (1 : ℝ) ≤ (t₁ : ℝ) := by exact_mod_cast ht₁
    linarith
  have hmul : (x ⬝ᵥ Minv.mulVec x) * Real.log ((t₁ : ℝ) + 1) <
      (x ⬝ᵥ Minv.mulVec x) * Real.log ((t₂ : ℝ) + 1) :=
    mul_lt_mul_of_pos_left hlog hq
  exact mul_lt_mul_of_pos_left
    (Real.sqrt_lt_sqrt (mul_nonneg hq.le hlognn) hmul) halpha

/-- Witness for C9 at `alpha = 1`, `Minv` the identity, `x = ![1]`,
timesteps `1 < 2`. -/
theorem ucb_strictly_increasing_in_timestep_witness :
    (0 : ℝ) < 1 ∧
    (0 : ℝ) < ![(1 : ℝ)] ⬝ᵥ (1 : Matrix (Fin 1) (Fin 1) ℝ).mulVec ![1] ∧
    (1 : ℕ) ≤ 1 ∧ (1 : ℕ) < 2 ∧
    ucb 1 (1 : Matrix (Fin 1) (Fin 1) ℝ) ![1] 1 <
      ucb 1 (1 : Matrix (Fin 1) (Fin 1) ℝ) ![1] 2 := by
  have hq : (0 : ℝ) < ![(1 : ℝ)] ⬝ᵥ (1 : Matrix (Fin 1) (Fin 1) ℝ).mulVec ![1] := by
    norm_num [Matrix.one_mulVec, dotProduct, Fin.sum_univ_one]
  exact ⟨one_pos, hq, le_refl 1, by norm_num,
    ucb_strictly_increasing_in_timestep 1 1 ![1] 1 2 one_pos hq (le_refl 1)
      (by norm_num)⟩

/-- The total scalar increment a sequence of `update` calls adds to every
entry of `M`: the sum of the inner products `x_i ⬝ᵥ x_i`. -/
def sumSq (calls : List (ℝ × Context d)) : ℝ :=
  (calls.map fun pc => pc.2.2 ⬝ᵥ pc.2.2).sum

lemma foldl_update_M (calls : List (ℝ × Context d)) : ∀ mab : MatrixBias d,
    (calls.foldl (fun mab pc => mab.update pc.1 pc.2) mab).M =
      Matrix.of fun i j => mab.M i j + sumSq calls := by
  induction calls with
  | nil =>
    intro mab
    ext i j
    simp [sumSq]
  | cons pc calls ih =>
    intro mab
    rw [List.foldl_cons, ih]
    ext i j
    simp [MatrixBias.update, sumSq]
    ring
  
lemma sumSq_nonneg (calls : List (ℝ × Context d)) : 0 ≤ sumSq calls := by
  apply List.sum_nonneg
  intro a ha
  obtain ⟨pc, -, rfl⟩ := List.mem_map.mp ha
  exact Finset.sum_nonneg fun i _ => mul_self_nonneg _

lemma applyUpdates_M (d : ℕ) (calls : List (ℝ × Context d)) :
    (applyUpdates d calls).M =
      Matrix.of fun i j => (1 : Matrix (Fin d) (Fin d) ℝ) i j + sumSq calls :=
  foldl_update_M calls (MatrixBias.init d)

/-- C3: `M` starts as the `d × d` identity and, after every finite sequence
of `update` calls on a fresh `MatrixBias` (any payoffs, any length-`d`
context vectors), it is symmetric and positive-definite under exact
arithmetic, hence invertible at every observed state. -/
theorem M_identity_start_symmetric_posdef (d : ℕ)
    (calls : List (ℝ × Context d)) :
    (MatrixBias.init d).M = 1 ∧
    (applyUpdates d calls).M.IsSymm ∧
    (applyUpdates d calls).M.PosDef ∧
    IsUnit (applyUpdates d calls).M := by
  have hM := applyUpdates_M d calls
  have hS := sumSq_nonneg calls
  have hsymm : (applyUpdates d calls).M.IsSymm := by
    show ((applyUpdates d calls).M)ᵀ = (applyUpdates d calls).M
    rw [hM]
    ext i j
    by_cases h : i = j
    · subst h; rfl
    · simp [Matrix.one_apply, h, Ne.symm h]
  have hpd : (applyUpdates d calls).M.PosDef := by
    constructor
    · show ((applyUpdates d calls).M)ᴴ = (applyUpdates d calls).M
      ext i j
      rw [Matrix.conjTranspose_apply, star_trivial]
      exact congrFun (congrFun hsymm i) j
    · intro x hx
      have hsx : star x = x := by
        funext i
        exact star_trivial _
      rw [hsx, hM]
      have hmv : ∀ i,
          (Matrix.of fun i j =>
            (1 : Matrix (Fin d) (Fin d) ℝ) i j + sumSq calls).mulVec x i =
            x i + sumSq calls * ∑ j, x j := by
        intro i
        simp [Matrix.mulVec, dotProduct, Matrix.one_apply, add_mul, ite_mul,
          Finset.sum_add_distrib, Finset.mul_sum]
      have hdot :
          x ⬝ᵥ (Matrix.of fun i j =>
            (1 : Matrix (Fin d) (Fin d) ℝ) i j + sumSq calls).mulVec x =
            (∑ i, x i * x i) + sumSq calls * ((∑ i, x i) * (∑ i, x i)) := by
        simp only [dotProduct]
        rw [Finset.sum_congr rfl fun i _ => by rw [hmv i]]
        simp only [mul_add, Finset.sum_add_distrib]
        congr 1
        rw [← Finset.sum_mul]
        ring
      rw [hdot]
      have hpos1 : 0 < ∑ i, x i * x i := by
        obtain ⟨i, hi⟩ := Function.ne_iff.mp hx
        exact Finset.sum_pos' (fun j _ => mul_self_nonneg _)
          ⟨i, Finset.mem_univ i, mul_self_pos.mpr hi⟩
      exact add_pos_of_pos_of_nonneg hpos1
        (mul_nonneg hS (mul_self_nonneg _))
  exact ⟨rfl, hsymm, hpd, hpd.isUnit⟩

variable {n k : ℕ}

/-- The cluster partition supplied to the cluster-reduction agent, as built by
`load_clusters`: `cluster_to_idx` maps a cluster id to its member entity ids
and `idx_to_cluster` maps an entity id to its cluster id. -/
structure ClusterData (n k : ℕ) where
  cluster_to_idx : Fin k → List (Fin n)
  idx_to_cluster : Fin n → Fin k

/-- One step of the double loop in `MacroAgent.__init__`: for the ordered
entity pair `ij`, if the adjacency entry `graph[i][j]` is truthy (nonzero)
and the two entities' clusters differ, increment the clustered-graph cell
`(first_cluster, second_cluster)` by one. -/
noncomputable def clusterStep (graph : Matrix (Fin n) (Fin n) ℝ)
    (idx_to_cluster : Fin n → Fin k) (cg : Matrix (Fin k) (Fin k) ℝ)
    (ij : Fin n × Fin n) : Matrix (Fin k) (Fin k) ℝ :=
  if graph ij.1 ij.2 ≠ 0 then
    let first_cluster := idx_to_cluster ij.1
    let second_cluster := idx_to_cluster ij.2
    if first_cluster ≠ second_cluster then
      Matrix.of fun p q =>
        if p = first_cluster ∧ q = second_cluster then cg p q + 1 else cg p q
    else cg
  else cg

/-- The ordered pairs `(i, j)` visited, in order, by the nested
`for i in range(num_users): for j in range(num_users)` loops. -/
def allPairs (n : ℕ) : List (Fin n × Fin n) :=
  (List.finRange n).flatMap fun i => (List.finRange n).map fun j => (i, j)

/-- The Clustered Graph built by `MacroAgent.__init__`, starting from
`np.zeros((num_clusters, num_clusters))`. -/
noncomputable def clusteredGraph (graph : Matrix (Fin n) (Fin n) ℝ)
    (idx_to_cluster : Fin n → Fin k) : Matrix (Fin k) (Fin k) ℝ :=
  (allPairs n).foldl (clusterStep graph idx_to_cluster) 0

/-- The class `MacroAgent`: the two cluster maps and the clustered graph it
builds.  The delegate `GOBLinAgent` constructed from the clustered graph
lives in `GOBLinAgent.py`, outside the embedded core; no claim settled here
depends on it. -/
structure MacroAgent (n k : ℕ) where
  cluster_to_idx : Fin k → List (Fin n)
  idx_to_cluster : Fin n → Fin k
  clustered_graph : Matrix (Fin k) (Fin k) ℝ

/-- `MacroAgent.__init__(graph, num_users, cluster_data, vector_size, alpha)`:
raises `Exception("No cluster data for macro algorithm")` when `cluster_data`
is `None` or otherwise falsy — modelled as `Except.error` on `none` —
otherwise stores the cluster maps and builds the clustered graph.
`num_users` is the dimension `n` carried by the graph; `vector_size` and
`alpha` are only forwarded to the delegate `GOBLinAgent`. -/
noncomputable def MacroAgent.init (graph : Matrix (Fin n) (Fin n) ℝ)
    (cluster_data : Option (ClusterData n k)) (_vector_size : ℕ) (_alpha : ℝ) :
    Except String (MacroAgent n k) :=
  match cluster_data with
  | none => Except.error "No cluster data for macro algorithm"
  | some cd =>
      Except.ok
        { cluster_to_idx := cd.cluster_to_idx,
          idx_to_cluster := cd.idx_to_cluster,
          clustered_graph := clusteredGraph graph cd.idx_to_cluster }

/-- C7: constructing the Macro agent with no cluster data supplied raises the
construction-time error, for every graph, entity count, cluster count,
feature dimension and alpha; construction never succeeds without cluster
data. -/
theorem macro_init_without_cluster_data_fails (n k : ℕ)
    (graph : Matrix (Fin n) (Fin n) ℝ) (vector_size : ℕ) (alpha : ℝ) :
    MacroAgent.init graph (none : Option (ClusterData n k)) vector_size alpha =
      Except.error "No cluster data for macro algorithm" := rfl

lemma clusterStep_apply (graph : Matrix (Fin n) (Fin n) ℝ)
    (c : Fin n → Fin k) (cg : Matrix (Fin k) (Fin k) ℝ)
    (ij : Fin n × Fin n) (p q : Fin k) :
    clusterStep graph c cg ij p q =
      cg p q +
        if graph ij.1 ij.2 ≠ 0 ∧ p = c ij.1 ∧ q = c ij.2 ∧ c ij.1 ≠ c ij.2
          then 1 else 0 := by
  unfold clusterStep
  by_cases hg : graph ij.1 ij.2 ≠ 0
  · by_cases hc : c ij.1 ≠ c ij.2
    · by_cases hpq : p = c ij.1 ∧ q = c ij.2
      · simp [hg, hc, hpq]
      · simp [hg, hc, hpq]
    · simp [hg, hc]
  · simp [hg]

lemma foldl_clusterStep_apply (graph : Matrix (Fin n) (Fin n) ℝ)
    (c : Fin n → Fin k) (l : List (Fin n × Fin n)) (p q : Fin k) :
    ∀ cg : Matrix (Fin k) (Fin k) ℝ,
    l.foldl (clusterStep graph c) cg p q =
      cg p q + ((l.map fun ij =>
        if graph ij.1 ij.2 ≠ 0 ∧ p = c ij.1 ∧ q = c ij.2 ∧ c ij.1 ≠ c ij.2
          then (1 : ℝ) else 0).sum) := by
  induction l with
  | nil =>
    intro cg
    simp
  | cons ij l ih =>
    intro cg
    rw [List.foldl_cons, ih, clusterStep_apply]
    simp only [List.map_cons, List.sum_cons]
    ring

lemma sum_map_allPairs (F : Fin n × Fin n → ℝ) :
    ((allPairs n).map F).sum = ∑ ij : Fin n × Fin n, F ij := by
  have hgen : ∀ l : List (Fin n),
      ((l.flatMap fun i => (List.finRange n).map fun j => (i, j)).map F).sum =
        (l.map fun i => ∑ j : Fin n, F (i, j)).sum := by
    intro l
    induction l with
    | nil => simp
    | cons i l ih =>
      rw [List.flatMap_cons, List.map_append, List.sum_append, ih,
        List.map_cons, List.sum_cons, List.map_map, Fin.sum_univ_def]
      rfl
  rw [allPairs, hgen, ← Fin.sum_univ_def, ← Finset.univ_product_univ,
    Finset.sum_product]

/-- C6: each cell `(p, q)` of the clustered graph built by
`MacroAgent.__init__` equals the number of ordered entity pairs `(i, j)` with
a nonzero adjacency entry whose clusters are `p` and `q` respectively and
differ; intra-cluster pairs contribute nothing, so a cell all of whose
member pairs are intra-cluster — in particular every diagonal cell — is
zero. -/
theorem clusteredGraph_counts_inter_cluster_pairs (n k : ℕ)
    (graph : Matrix (Fin n) (Fin n) ℝ) (c : Fin n → Fin k) (p q : Fin k) :
    clusteredGraph graph c p q =
      ((Finset.univ.filter fun ij : Fin n × Fin n =>
        graph ij.1 ij.2 ≠ 0 ∧ p = c ij.1 ∧ q = c ij.2 ∧
          c ij.1 ≠ c ij.2).card : ℝ) ∧
    clusteredGraph graph c p p = 0 := by
  have key : ∀ p q : Fin k, clusteredGraph graph c p q =
      ((Finset.univ.filter fun ij : Fin n × Fin n =>
        graph ij.1 ij.2 ≠ 0 ∧ p = c ij.1 ∧ q = c ij.2 ∧
          c ij.1 ≠ c ij.2).card : ℝ) := by
    intro p q
    rw [clusteredGraph, foldl_clusterStep_apply, sum_map_allPairs]
    simp only [Matrix.zero_apply, zero_add]
    rw [Finset.sum_boole]
  refine ⟨key p q, ?_⟩
  rw [key p p, Nat.cast_eq_zero, Finset.card_eq_zero,
    Finset.filter_eq_empty_iff]
  intro ij _
  rintro ⟨-, hp1, hp2, hne⟩
  exact hne (hp1.symm.trans hp2)
